import Mathlib

set_option linter.unusedVariables false

/-!
Formal verification development for the StockLighthouse feature/scoring
pipeline (backend/features/indicators.py, backend/features/normalize_pipeline.py,
backend/scoring/sample_scoring.py, backend/scoring/scoring_service.py).

Modelling conventions:
* Numeric values are embedded as exact rationals.  Well-formed input price
  series are lists of finite numbers (`List ℚ`).  Values that arise inside
  the computations and may be IEEE NaN or ±infinity (pandas missing values,
  divisions by zero) are embedded by the inductive type `PVal` with explicit
  IEEE-754 arithmetic on the non-finite cases.
* A pandas `Series` is a `List` of values; `s.diff()`, `s.shift(1)`,
  `rolling(window=p, min_periods=p)` and `ewm(span=p, adjust=False,
  min_periods=p).mean()` are embedded by the list transforms below.
* Square roots (used by `rolling.std`, i.e. the `volatility` indicator, and
  by `np.std` inside `normalize_zscore`) are irrational in general, so the
  affected definitions are parametrised by an abstract `sqrtFn : ℚ → ℚ`;
  the theorems only use the hypothesis `sqrtFn 0 = 0`, which every square
  root implementation satisfies.
* Python exceptions are embedded with `Except PyErr`.
-/

namespace StockLighthouse

/-- Python runtime error, as far as the verified fragment needs it. -/
inductive PyErr where
  | nameError (msg : String)
  | valueError (msg : String)
deriving DecidableEq

/-- A double value: finite rational, NaN, or a signed infinity. -/
inductive PVal where
  | fin (q : ℚ)
  | nan
  | inf
  | ninf
deriving DecidableEq

namespace PVal

/-- Finiteness test (`np.isfinite`). -/
def isFinite : PVal → Bool
  | .fin _ => true
  | _ => false

/-- IEEE negation. -/
def neg : PVal → PVal
  | .fin q => .fin (-q)
  | .nan => .nan
  | .inf => .ninf
  | .ninf => .inf

/-- IEEE addition (NaN propagates; inf + (-inf) = NaN). -/
def add : PVal → PVal → PVal
  | .nan, _ => .nan
  | _, .nan => .nan
  | .fin a, .fin b => .fin (a + b)
  | .inf, .ninf => .nan
  | .ninf, .inf => .nan
  | .inf, _ => .inf
  | _, .inf => .inf
  | .ninf, _ => .ninf
  | _, .ninf => .ninf

/-- IEEE subtraction. -/
def sub (a b : PVal) : PVal := a.add b.neg

/-- IEEE multiplication (inf · 0 = NaN). -/
def mul : PVal → PVal → PVal
  | .nan, _ => .nan
  | _, .nan => .nan
  | .fin a, .fin b => .fin (a * b)
  | .inf, .fin b => if b = 0 then .nan else if 0 < b then .inf else .ninf
  | .fin a, .inf => if a = 0 then .nan else if 0 < a then .inf else .ninf
  | .ninf, .fin b => if b = 0 then .nan else if 0 < b then .ninf else .inf
  | .fin a, .ninf => if a = 0 then .nan else if 0 < a then .ninf else .inf
  | .inf, .inf => .inf
  | .inf, .ninf => .ninf
  | .ninf, .inf => .ninf
  | .ninf, .ninf => .inf

/-- IEEE division (x/0 is a signed infinity for x ≠ 0 and NaN for x = 0;
finite / infinite = 0; infinite / infinite = NaN). -/
def div : PVal → PVal → PVal
  | .nan, _ => .nan
  | _, .nan => .nan
  | .fin a, .fin b =>
    if b = 0 then (if 0 < a then .inf else if a < 0 then .ninf else .nan)
    else .fin (a / b)
  | .fin _, .inf => .fin 0
  | .fin _, .ninf => .fin 0
  | .inf, .fin b => if b < 0 then .ninf else .inf
  | .ninf, .fin b => if b < 0 then .inf else .ninf
  | .inf, .inf => .nan
  | .inf, .ninf => .nan
  | .ninf, .inf => .nan
  | .ninf, .ninf => .nan

/-- IEEE absolute value. -/
def pabs : PVal → PVal
  | .fin q => .fin |q|
  | .nan => .nan
  | .inf => .inf
  | .ninf => .inf

/-- IEEE strict less-than as a Bool (comparisons with NaN are false). -/
def ltB : PVal → PVal → Bool
  | .fin a, .fin b => a < b
  | .nan, _ => false
  | _, .nan => false
  | .ninf, .ninf => false
  | .ninf, .fin _ => true
  | .ninf, .inf => true
  | .fin _, .inf => true
  | .inf, _ => false
  | .fin _, .ninf => false

/-- Pairwise maximum skipping NaN, as in `DataFrame.max(axis=1)` with the
default `skipna=True`: a NaN operand is ignored. -/
def maxSkipNan : PVal → PVal → PVal
  | .nan, b => b
  | a, .nan => a
  | .fin a, .fin b => .fin (max a b)
  | .inf, _ => .inf
  | _, .inf => .inf
  | .ninf, b => b
  | .fin a, .ninf => .fin a

end PVal

/-- Series.diff(): first element NaN, element i is x_i − x_{i−1}. -/
def diffL (xs : List ℚ) : List PVal :=
  match xs with
  | [] => []
  | _ :: t => .nan :: List.zipWith (fun prev cur => PVal.fin (cur - prev)) xs t

/-- Series.shift(1) of a finite series: first element NaN, element i is
x_{i−1}. -/
def shift1 (xs : List ℚ) : List PVal :=
  match xs with
  | [] => []
  | _ :: _ => .nan :: xs.dropLast.map .fin

/-- Recursion of `ewm(span=period, adjust=False, min_periods=period).mean()`:
`prev` is the running mean over the non-NaN observations seen so far (if
any), `cnt` their count.  A finite observation x updates the mean to
`(1−α)·prev + α·x` (or starts it); a missing observation leaves the state
unchanged and the output carries the running mean.  The output is NaN until
`period` observations have been seen (`min_periods`). -/
def ewmGo (alpha : ℚ) (period : ℕ) : Option ℚ → ℕ → List PVal → List PVal
  | _, _, [] => []
  | prev, cnt, x :: rest =>
    match x with
    | .fin q =>
      let m := match prev with
        | none => q
        | some p => (1 - alpha) * p + alpha * q
      (if cnt + 1 < period then PVal.nan else PVal.fin m) ::
        ewmGo alpha period (some m) (cnt + 1) rest
    | _ =>
      (match prev with
        | none => PVal.nan
        | some p => if cnt < period then PVal.nan else PVal.fin p) ::
        ewmGo alpha period prev cnt rest

/-- ewm(span=period, adjust=False, min_periods=period).mean() over a series
with possibly-missing values; α = 2/(period+1). -/
def ewmMean (period : ℕ) (xs : List PVal) : List PVal :=
  ewmGo (2 / ((period : ℚ) + 1)) period none 0 xs

/-- sma from backend/features/indicators.py:
`series.rolling(window=period, min_periods=period).mean()`. -/
def sma (series : List ℚ) (period : ℕ) : List PVal :=
  (List.range series.length).map fun i =>
    if i + 1 < period then PVal.nan
    else PVal.fin (((series.take (i + 1)).drop (i + 1 - period)).sum / (period : ℚ))

/-- ema from backend/features/indicators.py:
`series.ewm(span=period, adjust=False, min_periods=period).mean()`. -/
def ema (series : List PVal) (period : ℕ) : List PVal :=
  ewmMean period series

/-- momentum from backend/features/indicators.py.  The module imports only
pandas (`import pandas as pd`, line 15); the expression
`shifted.replace(0, np.nan)` on line 199 therefore evaluates the unbound
name `np` and every call raises `NameError: name np is not defined`,
before any arithmetic is performed. -/
def momentum (series : List ℚ) (period : ℕ) : Except PyErr (List PVal) :=
  .error (.nameError "name np is not defined")

/-- volatility from backend/features/indicators.py:
`series.rolling(window=period, min_periods=period).std()` (sample standard
deviation, ddof = 1; NaN for a full window of size 1 because the ddof
denominator is zero). -/
def volatility (sqrtFn : ℚ → ℚ) (series : List ℚ) (period : ℕ) : List PVal :=
  (List.range series.length).map fun i =>
    if i + 1 < period then PVal.nan
    else if period = 1 then PVal.nan
    else
      let w := (series.take (i + 1)).drop (i + 1 - period)
      let m := w.sum / (period : ℚ)
      PVal.fin (sqrtFn ((w.map (fun x => (x - m) ^ 2)).sum / ((period : ℚ) - 1)))

/-- Gains series of rsi: `delta.where(delta > 0, 0.0)` (a NaN delta fails
the condition and becomes 0.0). -/
def rsiGains (series : List ℚ) : List PVal :=
  (diffL series).map fun d => if PVal.ltB (.fin 0) d then d else .fin 0

/-- Loss series of rsi: `-delta.where(delta < 0, 0.0)` (losses stored as
positive magnitudes; a NaN delta becomes 0.0). -/
def rsiLosses (series : List ℚ) : List PVal :=
  (diffL series).map fun d => ((if PVal.ltB d (.fin 0) then d else .fin 0)).neg

/-- rsi from backend/features/indicators.py: EMA-smoothed gains and losses,
`rs = avg_gain / avg_loss`, `100 − 100/(1+rs)`, then `fillna(100.0)`. -/
def rsi (series : List ℚ) (period : ℕ) : List PVal :=
  let avg_gain := ewmMean period (rsiGains series)
  let avg_loss := ewmMean period (rsiLosses series)
  let rs := List.zipWith PVal.div avg_gain avg_loss
  let rsi_values := rs.map fun r =>
    (PVal.fin 100).sub ((PVal.fin 100).div ((PVal.fin 1).add r))
  rsi_values.map fun v => if v = PVal.nan then PVal.fin 100 else v

/-- macd from backend/features/indicators.py: MACD line = EMA(fast) −
EMA(slow); signal = EMA(MACD line, signal_period); histogram = line −
signal.  Returns (macd_line, signal_line, histogram). -/
def macd (series : List ℚ) (fast_period slow_period signal_period : ℕ) :
    List PVal × List PVal × List PVal :=
  let ema_fast := ema (series.map .fin) fast_period
  let ema_slow := ema (series.map .fin) slow_period
  let macd_line := List.zipWith PVal.sub ema_fast ema_slow
  let signal_line := ema macd_line signal_period
  let histogram := List.zipWith PVal.sub macd_line signal_line
  (macd_line, signal_line, histogram)

/-- atr from backend/features/indicators.py: true range = rowwise max
(skipping NaN) of high−low, |high−prev_close|, |low−prev_close|; ATR =
EMA(true range, period). -/
def atr (high low close : List ℚ) (period : ℕ) : List PVal :=
  let tr1 := List.zipWith (fun h l => PVal.fin (h - l)) high low
  let tr2 := List.zipWith (fun h pc => ((PVal.fin h).sub pc).pabs) high (shift1 close)
  let tr3 := List.zipWith (fun l pc => ((PVal.fin l).sub pc).pabs) low (shift1 close)
  let true_range := List.zipWith PVal.maxSkipNan (List.zipWith PVal.maxSkipNan tr1 tr2) tr3
  ewmMean period true_range

/-- adx from backend/features/indicators.py: +DM/−DM with the strict
tie-break conditions, ±DI = 100·EMA(DM)/ATR, DX = 100·|+DI−−DI|/(+DI+−DI)
with NaN filled as 0, ADX = EMA(DX, period). -/
def adx (high low close : List ℚ) (period : ℕ) : List PVal :=
  let high_diff := diffL high
  let low_diff := (diffL low).map PVal.neg
  let plus_dm := List.zipWith
    (fun hd ld => if PVal.ltB ld hd && PVal.ltB (.fin 0) hd then hd else .fin 0)
    high_diff low_diff
  let minus_dm := List.zipWith
    (fun hd ld => if PVal.ltB hd ld && PVal.ltB (.fin 0) ld then ld else .fin 0)
    high_diff low_diff
  let atr_values := atr high low close period
  let plus_di := List.zipWith
    (fun dm a => (PVal.fin 100).mul (dm.div a)) (ewmMean period plus_dm) atr_values
  let minus_di := List.zipWith
    (fun dm a => (PVal.fin 100).mul (dm.div a)) (ewmMean period minus_dm) atr_values
  let dx := List.zipWith
    (fun p m => ((PVal.fin 100).mul ((p.sub m).pabs)).div (p.add m)) plus_di minus_di
  let dx_filled := dx.map fun v => if v = PVal.nan then PVal.fin 0 else v
  ewmMean period dx_filled

/-- obv from backend/features/indicators.py: signed volume (+volume when
the close rose, −volume when it fell, 0 otherwise — the first day's NaN
diff contributes 0), then a cumulative sum. -/
def obv (close volume : List ℚ) : List ℚ :=
  let price_change := diffL close
  let contrib := List.zipWith
    (fun pc v =>
      (if PVal.ltB (.fin 0) pc then v else 0) - (if PVal.ltB pc (.fin 0) then v else 0))
    price_change volume
  (List.range contrib.length).map fun i => ((contrib.take (i + 1)).sum)

/-- Input OHLCV frame for compute_all_indicators: `close` is required,
`high`/`low`/`volume` are optional columns. -/
structure OhlcvFrame where
  close : List ℚ
  high : Option (List ℚ)
  low : Option (List ℚ)
  volume : Option (List ℚ)
deriving DecidableEq

/-- Output of compute_all_indicators: the input columns plus the indicator
columns; `atr_14`/`atr_volatility`/`adx_14` are present only when both
`high` and `low` are, `obv` only when `volume` is. -/
structure FeatureFrame where
  close : List ℚ
  high : Option (List ℚ)
  low : Option (List ℚ)
  volume : Option (List ℚ)
  sma_10 : List PVal
  sma_50 : List PVal
  sma_200 : List PVal
  ema_20 : List PVal
  ema_50 : List PVal
  rsi_14 : List PVal
  macd_col : List PVal
  macd_signal : List PVal
  macd_histogram : List PVal
  atr_14 : Option (List PVal)
  atr_volatility : Option (List PVal)
  adx_14 : Option (List PVal)
  momentum_20 : List PVal
  volatility_30 : List PVal
  obv_col : Option (List ℚ)

/-- compute_all_indicators from backend/features/indicators.py, in source
order.  The momentum step (line 289, calling momentum at line 199) raises
`NameError` on every input because `np` is unbound in that module, so the
function never returns. -/
def compute_all_indicators (sqrtFn : ℚ → ℚ) (df : OhlcvFrame) :
    Except PyErr FeatureFrame := do
  let sma10 := sma df.close 10
  let sma50 := sma df.close 50
  let sma200 := sma df.close 200
  let ema20 := ema (df.close.map .fin) 20
  let ema50 := ema (df.close.map .fin) 50
  let rsi14 := rsi df.close 14
  let (macd_line, signal_line, histogram) := macd df.close 12 26 9
  let atr14 : Option (List PVal) :=
    match df.high, df.low with
    | some h, some l => some (atr h l df.close 14)
    | _, _ => none
  let atrVol : Option (List PVal) :=
    (atr14).map fun a => List.zipWith (fun x c => x.div (.fin c)) a df.close
  let adx14 : Option (List PVal) :=
    match df.high, df.low with
    | some h, some l => some (adx h l df.close 14)
    | _, _ => none
  let mom ← momentum df.close 20
  let vol30 := volatility sqrtFn df.close 30
  let obvC : Option (List ℚ) := df.volume.map fun v => obv df.close v
  .ok {
    close := df.close, high := df.high, low := df.low, volume := df.volume
    sma_10 := sma10, sma_50 := sma50, sma_200 := sma200
    ema_20 := ema20, ema_50 := ema50, rsi_14 := rsi14
    macd_col := macd_line, macd_signal := signal_line, macd_histogram := histogram
    atr_14 := atr14, atr_volatility := atrVol, adx_14 := adx14
    momentum_20 := mom, volatility_30 := vol30, obv_col := obvC }

/-!
backend/features/normalize_pipeline.py.  A date-indexed OHLCV row; dates
are embedded as integers (day ordinals), and the frame carries all five
price/volume columns (the `if col in result.columns` checks of the source
are all taken).  The `astype(float)` conversions of the source are
value-preserving and need no counterpart on exact rationals.
-/

/-- One date-indexed OHLCV row of a price frame. -/
structure PriceRow where
  date : ℤ
  open_px : ℚ
  high : ℚ
  low : ℚ
  close : ℚ
  volume : ℚ
deriving DecidableEq

/-- adjust_for_splits from backend/features/normalize_pipeline.py, applied
to one row: prices divided by the split ratio, volume multiplied by it. -/
def adjustRowForSplits (r : PriceRow) (split_ratio : ℚ) : PriceRow :=
  { r with
    open_px := r.open_px / split_ratio
    high := r.high / split_ratio
    low := r.low / split_ratio
    close := r.close / split_ratio
    volume := r.volume * split_ratio }

/-- adjust_for_splits lifted to a frame (the source maps every row of the
frame it is given). -/
def adjust_for_splits (df : List PriceRow) (split_ratio : ℚ) : List PriceRow :=
  df.map (adjustRowForSplits · split_ratio)

/-- adjust_for_dividends from backend/features/normalize_pipeline.py,
applied to one row: the dividend amount is subtracted from the price
columns; volume is untouched. -/
def adjustRowForDividends (r : PriceRow) (dividend_amount : ℚ) : PriceRow :=
  { r with
    open_px := r.open_px - dividend_amount
    high := r.high - dividend_amount
    low := r.low - dividend_amount
    close := r.close - dividend_amount }

/-- adjust_for_dividends lifted to a frame. -/
def adjust_for_dividends (df : List PriceRow) (dividend_amount : ℚ) : List PriceRow :=
  df.map (adjustRowForDividends · dividend_amount)

/-- Corporate actions dictionary: a list of (date, split ratio) and a list
of (date, dividend amount); an absent key is an empty list. -/
structure CorporateActions where
  splits : List (ℤ × ℚ)
  dividends : List (ℤ × ℚ)
deriving DecidableEq

/-- One iteration of the splits loop of apply_corporate_actions:
`result.loc[result.index < split_date] = adjust_for_splits(...)` — rows
strictly before the split date are adjusted, the rest are untouched.  (The
source's `if mask.any()` guard only skips an empty masked assignment, which
is already the identity.) -/
def applySplitAction (df : List PriceRow) (split_date : ℤ) (split_ratio : ℚ) :
    List PriceRow :=
  df.map fun r => if r.date < split_date then adjustRowForSplits r split_ratio else r

/-- One iteration of the dividends loop of apply_corporate_actions. -/
def applyDividendAction (df : List PriceRow) (div_date : ℤ) (div_amount : ℚ) :
    List PriceRow :=
  df.map fun r => if r.date < div_date then adjustRowForDividends r div_amount else r

/-- apply_corporate_actions from backend/features/normalize_pipeline.py:
all splits are applied first (in the order supplied, each to the
progressively-adjusted frame), then all dividends. -/
def apply_corporate_actions (df : List PriceRow) (actions : CorporateActions) :
    List PriceRow :=
  let after_splits := actions.splits.foldl
    (fun acc sd => applySplitAction acc sd.1 sd.2) df
  actions.dividends.foldl (fun acc dv => applyDividendAction acc dv.1 dv.2) after_splits

/-- process_multi_ticker_data from backend/features/normalize_pipeline.py.
The per-ticker try-block body (normalize_and_generate_features with the
ticker's corporate actions, tagging rows with the ticker and resetting the
index) is abstracted as `pipeline : String → α → Except PyErr (List (ℤ × φ))`
mapping a ticker and its input frame to date-keyed feature rows, so that
failure patterns can be quantified.  A ticker whose pipeline raises is
logged and skipped; if no ticker succeeds a `ValueError` is raised;
otherwise the successful tickers' rows are concatenated and sorted by
(ticker, date). -/
def process_multi_ticker_data {α φ : Type}
    (pipeline : String → α → Except PyErr (List (ℤ × φ)))
    (data : List (String × α)) : Except PyErr (List (String × ℤ × φ)) :=
  let all_features : List (List (String × ℤ × φ)) := data.foldl
    (fun acc td =>
      match pipeline td.1 td.2 with
      | .ok rows => acc ++ [rows.map fun r => (td.1, r)]
      | .error _ => acc)
    []
  if all_features.isEmpty then
    .error (.valueError "No tickers were successfully processed")
  else
    .ok ((all_features.flatten).mergeSort fun a b =>
      a.1 < b.1 || (a.1 = b.1 && a.2.1 ≤ b.2.1))

/-!
backend/scoring/sample_scoring.py.  Feature arrays may contain NaN and
±infinity, so their entries are `PVal`; the normalizers return plain
rational arrays (every non-finite input is mapped to 0 before any
arithmetic can see it).
-/

/-- Finite entries of an array, in order (`values[np.isfinite(values)]`). -/
def finiteVals (values : List PVal) : List ℚ :=
  values.filterMap fun v => match v with | .fin q => some q | _ => none

/-- normalize_minmax from backend/scoring/sample_scoring.py: min/max over
the finite entries only; all-non-finite input gives zeros; max = min gives
0.5 at finite entries; otherwise `(x − min)/(max − min)` at finite entries;
non-finite entries are always 0. -/
def normalize_minmax (values : List PVal) : List ℚ :=
  match finiteVals values with
  | [] => List.replicate values.length 0
  | q :: qs =>
    let min_val := qs.foldl min q
    let max_val := qs.foldl max q
    if max_val = min_val then
      values.map fun v => if v.isFinite then (1 : ℚ) / 2 else 0
    else
      values.map fun v =>
        match v with
        | .fin x => (x - min_val) / (max_val - min_val)
        | _ => 0

/-- normalize_zscore from backend/scoring/sample_scoring.py: mean and
population standard deviation (`np.std`, ddof = 0) over the finite entries
only; all-non-finite input gives zeros; zero standard deviation gives
zeros; otherwise `(x − mean)/std` at finite entries and 0 at non-finite
entries, clipped to `[−clip_threshold, clip_threshold]` when the threshold
is positive.  The square root inside `np.std` is abstracted by `sqrtFn`. -/
def normalize_zscore (sqrtFn : ℚ → ℚ) (values : List PVal) (clip_threshold : ℚ) :
    List ℚ :=
  match finiteVals values with
  | [] => List.replicate values.length 0
  | q :: qs =>
    let valid := q :: qs
    let n : ℚ := valid.length
    let mean_val := valid.sum / n
    let std_val := sqrtFn ((valid.map fun x => (x - mean_val) ^ 2).sum / n)
    if std_val = 0 then List.replicate values.length 0
    else
      let result := values.map fun v =>
        match v with
        | .fin x => (x - mean_val) / std_val
        | _ => 0
      if 0 < clip_threshold then
        result.map fun x => max (-clip_threshold) (min clip_threshold x)
      else result

/-- compute_weighted_score from backend/scoring/sample_scoring.py: iterate
over the configured weights, skipping features absent from the input
mapping, accumulating `score += weight · values` (with `1 − value` for
inverted features) and the weight actually used; finally divide by the
used weight when it is positive.  An empty features mapping raises
`ValueError`.  Arrays are assumed aligned in length (a numpy broadcast
error otherwise — malformed input).  `cwsStep` is the body of the
source's `for feature_name, weight in weights.items()` loop. -/
def cwsStep (features : List (String × List ℚ)) (invert_features : List String)
    (acc : List ℚ × ℚ) (fw : String × ℚ) : List ℚ × ℚ :=
  match features.lookup fw.1 with
  | none => acc
  | some vals =>
    let feature_values := if fw.1 ∈ invert_features then vals.map (1 - ·) else vals
    (List.zipWith (fun s v => s + fw.2 * v) acc.1 feature_values, acc.2 + fw.2)

def compute_weighted_score (features : List (String × List ℚ))
    (weights : List (String × ℚ)) (invert_features : List String) :
    Except PyErr (List ℚ) :=
  match features with
  | [] => .error (.valueError "Features dictionary cannot be empty")
  | (_, v0) :: _ =>
    let n := v0.length
    let sw := weights.foldl (cwsStep features invert_features) (List.replicate n 0, 0)
    .ok (if 0 < sw.2 then sw.1.map (· / sw.2) else sw.1)

/-- Sum of the weights of the configured features actually present in the
input mapping (the denominator the spec describes). -/
def presentWeight (features : List (String × List ℚ)) (weights : List (String × ℚ)) : ℚ :=
  ((weights.filter fun fw => (features.lookup fw.1).isSome).map fun fw => fw.2).sum

/-- Value of feature `f` at index `i` as used by the weighted sum: the
looked-up entry, inverted when `f` is in `invert_features`, and 0 when the
feature is absent. -/
def featureAt (features : List (String × List ℚ)) (invert_features : List String)
    (f : String) (i : ℕ) : ℚ :=
  match features.lookup f with
  | none => 0
  | some vals =>
    let x := vals.getD i 0
    if f ∈ invert_features then 1 - x else x

/-- Weighted sum over the present configured features at index `i` (the
numerator the spec describes). -/
def weightedSumAt (features : List (String × List ℚ)) (weights : List (String × ℚ))
    (invert_features : List String) (i : ℕ) : ℚ :=
  ((weights.filter fun fw => (features.lookup fw.1).isSome).map
    fun fw => fw.2 * featureAt features invert_features fw.1 i).sum

/-! Supporting lemmas. -/

theorem length_diffL (xs : List ℚ) : (diffL xs).length = xs.length := by
  cases xs with
  | nil => rfl
  | cons x t => simp [diffL, List.length_zipWith]

theorem length_ewmGo (a : ℚ) (p : ℕ) :
    ∀ (l : List PVal) (prev : Option ℚ) (cnt : ℕ),
      (ewmGo a p prev cnt l).length = l.length := by
  intro l
  induction l with
  | nil => intro prev cnt; rfl
  | cons x t ih =>
    intro prev cnt
    cases x <;> simp [ewmGo, ih]

theorem length_ewmMean (p : ℕ) (l : List PVal) : (ewmMean p l).length = l.length :=
  length_ewmGo _ p l none 0

theorem length_rsiGains (xs : List ℚ) : (rsiGains xs).length = xs.length := by
  simp [rsiGains, length_diffL]

theorem length_rsiLosses (xs : List ℚ) : (rsiLosses xs).length = xs.length := by
  simp [rsiLosses, length_diffL]

theorem mem_zipWith_cases {α β γ : Type} (f : α → β → γ) :
    ∀ (as : List α) (bs : List β) (x : γ), x ∈ List.zipWith f as bs → ∃ a b, x = f a b := by
  intro as
  induction as with
  | nil => intro bs x hx; simp at hx
  | cons a t ih =>
    intro bs x hx
    cases bs with
    | nil => simp at hx
    | cons b tb =>
      simp only [List.zipWith_cons_cons, List.mem_cons] at hx
      rcases hx with rfl | hx
      · exact ⟨a, b, rfl⟩
      · exact ih tb x hx

theorem diffL_mem_cases (xs : List ℚ) :
    ∀ v ∈ diffL xs, v = PVal.nan ∨ ∃ q, v = PVal.fin q := by
  cases xs with
  | nil => intro v hv; simp [diffL] at hv
  | cons x t =>
    intro v hv
    simp only [diffL, List.mem_cons] at hv
    rcases hv with rfl | hv
    · exact Or.inl rfl
    · obtain ⟨a, b, rfl⟩ := mem_zipWith_cases _ _ _ _ hv
      exact Or.inr ⟨_, rfl⟩

theorem rsiGains_finite (xs : List ℚ) : ∀ v ∈ rsiGains xs, v.isFinite := by
  intro v hv
  simp only [rsiGains, List.mem_map] at hv
  obtain ⟨d, hd, rfl⟩ := hv
  rcases diffL_mem_cases xs d hd with rfl | ⟨q, rfl⟩
  · simp [PVal.ltB, PVal.isFinite]
  · simp only [PVal.ltB]
    split <;> simp [PVal.isFinite]

theorem rsiLosses_finite (xs : List ℚ) : ∀ v ∈ rsiLosses xs, v.isFinite := by
  intro v hv
  simp only [rsiLosses, List.mem_map] at hv
  obtain ⟨d, hd, rfl⟩ := hv
  rcases diffL_mem_cases xs d hd with rfl | ⟨q, rfl⟩
  · simp [PVal.ltB, PVal.neg, PVal.isFinite]
  · simp only [PVal.ltB]
    split <;> simp [PVal.isFinite, PVal.neg]

theorem ewmGo_warmup (a : ℚ) (p : ℕ) :
    ∀ (l : List PVal) (prev : Option ℚ) (cnt i : ℕ),
      (∀ v ∈ l, v.isFinite) → i < l.length → cnt + i + 1 < p →
      (ewmGo a p prev cnt l)[i]? = some PVal.nan := by
  intro l
  induction l with
  | nil => intro prev cnt i _ hi _; simp at hi
  | cons x t ih =>
    intro prev cnt i hfin hi hlt
    have hx : x.isFinite := hfin x (by simp)
    cases x with
    | fin q =>
      cases i with
      | zero =>
        simp only [ewmGo, List.getElem?_cons_zero]
        rw [if_pos (by omega)]
      | succ j =>
        simp only [ewmGo, List.getElem?_cons_succ]
        exact ih _ _ j (fun v hv => hfin v (by simp [hv]))
          (by simpa using hi) (by omega)
    | nan => simp [PVal.isFinite] at hx
    | inf => simp [PVal.isFinite] at hx
    | ninf => simp [PVal.isFinite] at hx

theorem ewmGo_mem_cases (a : ℚ) (p : ℕ) :
    ∀ (l : List PVal) (prev : Option ℚ) (cnt : ℕ),
      ∀ v ∈ ewmGo a p prev cnt l, v = PVal.nan ∨ ∃ q, v = PVal.fin q := by
  intro l
  induction l with
  | nil => intro prev cnt v hv; simp [ewmGo] at hv
  | cons x t ih =>
    intro prev cnt v hv
    cases x with
    | fin q =>
      simp only [ewmGo, List.mem_cons] at hv
      rcases hv with rfl | hv
      · split
        · exact Or.inl rfl
        · exact Or.inr ⟨_, rfl⟩
      · exact ih _ _ v hv
    | nan =>
      simp only [ewmGo, List.mem_cons] at hv
      rcases hv with rfl | hv
      · cases prev with
        | none => exact Or.inl rfl
        | some q => simp only; split
                    · exact Or.inl rfl
                    · exact Or.inr ⟨_, rfl⟩
      · exact ih _ _ v hv
    | inf =>
      simp only [ewmGo, List.mem_cons] at hv
      rcases hv with rfl | hv
      · cases prev with
        | none => exact Or.inl rfl
        | some q => simp only; split
                    · exact Or.inl rfl
                    · exact Or.inr ⟨_, rfl⟩
      · exact ih _ _ v hv
    | ninf =>
      simp only [ewmGo, List.mem_cons] at hv
      rcases hv with rfl | hv
      · cases prev with
        | none => exact Or.inl rfl
        | some q => simp only; split
                    · exact Or.inl rfl
                    · exact Or.inr ⟨_, rfl⟩
      · exact ih _ _ v hv

/-! Claim theorems. -/

/-- C2: the claim says momentum returns the percentage change (null at a
zero reference) and never raises; the code raises `NameError` on every
call — evaluated here at the concrete series [100, 110] with period 1 —
because `np` is not imported in backend/features/indicators.py. -/
theorem momentum_raises_nameError_on_simple_input :
    momentum [(100 : ℚ), 110] 1 = .error (.nameError "name np is not defined") := rfl

/-- A concrete 250-day gap-free OHLCV history (3 such tickers would each
hit the same error): linearly rising close with high/low/volume present. -/
def sample250 : OhlcvFrame where
  close := (List.range 250).map fun i => (100 : ℚ) + i
  high := some ((List.range 250).map fun i => (101 : ℚ) + i)
  low := some ((List.range 250).map fun i => (99 : ℚ) + i)
  volume := some (List.replicate 250 (1000 : ℚ))

/-- C1: the claim says compute_all_indicators returns a frame with
non-null sma_10/ema_20/rsi_14 at the final row and conditionally-present
atr_14/adx_14/obv; the code never returns: the momentum_20 step raises
`NameError` (unbound `np`) for every input, including this 250-day
gap-free history. -/
theorem compute_all_indicators_raises_on_250_day_history :
    compute_all_indicators id sample250 = .error (.nameError "name np is not defined") := rfl

/-- C3 counterexample: the claim says the first period−1 points of
rsi(series, period) are undefined (null); for series [1, 2, 3] and
period 2 the first point is 100.0, not null — `fillna(100.0)` fills the
min_periods warm-up NaN as well. -/
theorem rsi_first_point_is_100_not_null :
    (rsi [(1 : ℚ), 2, 3] 2)[0]? = some (PVal.fin 100) ∧
      some (PVal.fin 100) ≠ some PVal.nan := by
  refine ⟨?_, by decide⟩
  norm_num [rsi, rsiGains, rsiLosses, diffL, ewmMean, ewmGo, PVal.ltB, PVal.div,
    PVal.add, PVal.sub, PVal.neg]

/-- C3 (amended): for every input series and period, the first period−1
output points of rsi (the min_periods warm-up of the smoothed gain/loss
averages) are 100.0 — the final `fillna(100.0)` fills the warm-up NaNs as
well as the avg_loss = 0 case — and at every index where the smoothed
avg_loss is exactly zero the RSI value equals 100. -/
theorem rsi_warmup_and_zero_avg_loss_give_100 (series : List ℚ) (period i : ℕ)
    (hi : i < series.length) :
    (i + 1 < period → (rsi series period)[i]? = some (PVal.fin 100)) ∧
    ((ewmMean period (rsiLosses series))[i]? = some (PVal.fin 0) →
      (rsi series period)[i]? = some (PVal.fin 100)) := by
  have hga : (ewmMean period (rsiGains series)).length = series.length := by
    rw [length_ewmMean, length_rsiGains]
  constructor
  · intro hp
    have h1 : (ewmMean period (rsiGains series))[i]? = some PVal.nan := by
      unfold ewmMean
      exact ewmGo_warmup _ period (rsiGains series) none 0 i (rsiGains_finite series)
        (by rw [length_rsiGains]; exact hi) (by omega)
    have h2 : (ewmMean period (rsiLosses series))[i]? = some PVal.nan := by
      unfold ewmMean
      exact ewmGo_warmup _ period (rsiLosses series) none 0 i (rsiLosses_finite series)
        (by rw [length_rsiLosses]; exact hi) (by omega)
    simp only [rsi, List.getElem?_map, List.getElem?_zipWith, h1, h2]
    rfl
  · intro h0
    have hilen : i < (ewmMean period (rsiGains series)).length := by rw [hga]; exact hi
    obtain ⟨v, hv⟩ : ∃ v, (ewmMean period (rsiGains series))[i]? = some v := by
      rw [List.getElem?_eq_getElem hilen]
      exact ⟨_, rfl⟩
    have hmem : v ∈ ewmMean period (rsiGains series) := List.getElem?_mem hv
    have hcases := ewmGo_mem_cases _ period (rsiGains series) none 0 v hmem
    rcases hcases with hnan | ⟨g, hfin⟩
    · rw [hnan] at hv
      simp only [rsi, List.getElem?_map, List.getElem?_zipWith, hv, h0]
      rfl
    · rw [hfin] at hv
      simp only [rsi, List.getElem?_map, List.getElem?_zipWith, hv, h0]
      rcases lt_trichotomy g 0 with hg | hg | hg
      · have hdiv : PVal.div (PVal.fin g) (PVal.fin 0) = PVal.ninf := by
          simp [PVal.div, hg, hg.not_lt]
        rw [hdiv]
        norm_num [PVal.sub, PVal.add, PVal.neg, PVal.div]
      · subst hg
        have hdiv : PVal.div (PVal.fin 0) (PVal.fin 0) = PVal.nan := by
          simp [PVal.div]
        rw [hdiv]
        rfl
      · have hdiv : PVal.div (PVal.fin g) (PVal.fin 0) = PVal.inf := by
          simp [PVal.div, hg, hg.not_lt]
        rw [hdiv]
        norm_num [PVal.sub, PVal.add, PVal.neg, PVal.div]

/-- C8: for every input series strictly shorter than the period, sma and
volatility return an output of the same length as the input in which every
value is undefined (NaN); more generally the first period−1 output points
are undefined. -/
theorem sma_volatility_warmup_undefined (sqrtFn : ℚ → ℚ) (series : List ℚ)
    (period : ℕ) (hp : 1 ≤ period) :
    ((sma series period).length = series.length ∧
     (volatility sqrtFn series period).length = series.length) ∧
    (series.length < period →
      (∀ v ∈ sma series period, v = PVal.nan) ∧
      (∀ v ∈ volatility sqrtFn series period, v = PVal.nan)) ∧
    (∀ i, i < series.length → i + 1 < period →
      (sma series period)[i]? = some PVal.nan ∧
      (volatility sqrtFn series period)[i]? = some PVal.nan) := by
  refine ⟨⟨by simp [sma], by simp [volatility]⟩, ?_, ?_⟩
  · intro hshort
    constructor
    · intro v hv
      simp only [sma, List.mem_map, List.mem_range] at hv
      obtain ⟨i, hi, rfl⟩ := hv
      rw [if_pos (by omega)]
    · intro v hv
      simp only [volatility, List.mem_map, List.mem_range] at hv
      obtain ⟨i, hi, rfl⟩ := hv
      rw [if_pos (by omega)]
  · intro i hi hip
    constructor
    · rw [sma, List.getElem?_map, List.getElem?_range hi]
      simp [hip]
    · rw [volatility, List.getElem?_map, List.getElem?_range hi]
      simp [hip]

/-- C5: a single split action (date d, ratio r) divides the four price
columns and multiplies the volume by r for exactly the rows dated strictly
before d, leaves rows dated on or after d unchanged, and with r = 1 the
whole frame is exactly the input. -/
theorem apply_single_split_action (df : List PriceRow) (d : ℤ) (r : ℚ) :
    (∀ (i : ℕ) (row : PriceRow), df[i]? = some row →
      (row.date < d →
        (apply_corporate_actions df ⟨[(d, r)], []⟩)[i]? =
          some ⟨row.date, row.open_px / r, row.high / r, row.low / r,
                row.close / r, row.volume * r⟩) ∧
      (¬ row.date < d →
        (apply_corporate_actions df ⟨[(d, r)], []⟩)[i]? = some row)) ∧
    (r = 1 → apply_corporate_actions df ⟨[(d, r)], []⟩ = df) := by
  have hform : apply_corporate_actions df ⟨[(d, r)], []⟩ =
      df.map fun row => if row.date < d then adjustRowForSplits row r else row := rfl
  constructor
  · intro i row hrow
    constructor
    · intro hlt
      rw [hform, List.getElem?_map, hrow]
      simp [adjustRowForSplits, hlt]
    · intro hge
      rw [hform, List.getElem?_map, hrow]
      simp [hge]
  · intro hr1
    subst hr1
    rw [hform]
    have hid : ∀ row : PriceRow,
        (if row.date < d then adjustRowForSplits row 1 else row) = row := by
      intro row
      split
      · simp [adjustRowForSplits]
      · rfl
    simp [hid]

/-- C10: two splits compound cumulatively against the progressively
adjusted frame (a row before both dates ends up divided by r1·r2 in
prices and multiplied by r1·r2 in volume), and split actions are applied
before dividend actions regardless of dates (a row before both a split
and a dividend date ends up at price/r − a, not (price − a)/r). -/
theorem apply_corporate_actions_compound_split_first :
    (∀ (df : List PriceRow) (d1 d2 : ℤ) (r1 r2 : ℚ), d1 ≤ d2 →
      ∀ (i : ℕ) (row : PriceRow), df[i]? = some row → row.date < d1 →
        (apply_corporate_actions df ⟨[(d1, r1), (d2, r2)], []⟩)[i]? =
          some ⟨row.date, row.open_px / (r1 * r2), row.high / (r1 * r2),
                row.low / (r1 * r2), row.close / (r1 * r2),
                row.volume * (r1 * r2)⟩) ∧
    (∀ (df : List PriceRow) (ds dd : ℤ) (r a : ℚ),
      ∀ (i : ℕ) (row : PriceRow), df[i]? = some row → row.date < ds → row.date < dd →
        (apply_corporate_actions df ⟨[(ds, r)], [(dd, a)]⟩)[i]? =
          some ⟨row.date, row.open_px / r - a, row.high / r - a,
                row.low / r - a, row.close / r - a, row.volume * r⟩) := by
  constructor
  · intro df d1 d2 r1 r2 hd i row hrow hlt
    have hform : apply_corporate_actions df ⟨[(d1, r1), (d2, r2)], []⟩ =
        applySplitAction (applySplitAction df d1 r1) d2 r2 := rfl
    rw [hform, applySplitAction, applySplitAction, List.getElem?_map,
      List.getElem?_map, hrow]
    have hlt2 : row.date < d2 := lt_of_lt_of_le hlt hd
    simp [adjustRowForSplits, hlt, hlt2, div_div, mul_assoc]
  · intro df ds dd r a i row hrow hs hdd
    have hform : apply_corporate_actions df ⟨[(ds, r)], [(dd, a)]⟩ =
        applyDividendAction (applySplitAction df ds r) dd a := rfl
    rw [hform, applyDividendAction, applySplitAction, List.getElem?_map,
      List.getElem?_map, hrow]
    simp [adjustRowForSplits, adjustRowForDividends, hs, hdd]

theorem foldl_min_const (q : ℚ) :
    ∀ qs : List ℚ, (∀ b ∈ qs, b = q) → qs.foldl min q = q := by
  intro qs
  induction qs with
  | nil => intro _; rfl
  | cons b t ih =>
    intro h
    rw [List.foldl_cons, h b (by simp), min_self]
    exact ih fun c hc => h c (by simp [hc])

theorem foldl_max_const (q : ℚ) :
    ∀ qs : List ℚ, (∀ b ∈ qs, b = q) → qs.foldl max q = q := by
  intro qs
  induction qs with
  | nil => intro _; rfl
  | cons b t ih =>
    intro h
    rw [List.foldl_cons, h b (by simp), max_self]
    exact ih fun c hc => h c (by simp [hc])

/-- C7: normalize_minmax excludes non-finite entries from the min/max
computation and maps them to 0, and maps every finite entry to 0.5 when
the finite maximum equals the finite minimum; normalize_zscore computes
its statistics over finite entries only, maps non-finite entries to 0,
and maps every entry to 0 on zero-variance (all finite entries equal)
input. -/
theorem normalize_nonfinite_and_degenerate_policies :
    (∀ (values : List PVal) (i : ℕ) (v : PVal),
      values[i]? = some v → v.isFinite = false →
      (normalize_minmax values)[i]? = some 0) ∧
    (∀ values : List PVal, (∀ a ∈ finiteVals values, ∀ b ∈ finiteVals values, a = b) →
      ∀ (i : ℕ) (v : PVal), values[i]? = some v → v.isFinite = true →
      (normalize_minmax values)[i]? = some (1 / 2)) ∧
    (∀ (sqrtFn : ℚ → ℚ) (t : ℚ) (values : List PVal) (i : ℕ) (v : PVal),
      values[i]? = some v → v.isFinite = false →
      (normalize_zscore sqrtFn values t)[i]? = some 0) ∧
    (∀ sqrtFn : ℚ → ℚ, sqrtFn 0 = 0 → ∀ (t : ℚ) (values : List PVal),
      (∀ a ∈ finiteVals values, ∀ b ∈ finiteVals values, a = b) →
      normalize_zscore sqrtFn values t = List.replicate values.length 0) := by
  have hidx : ∀ (values : List PVal) (i : ℕ) (v : PVal),
      values[i]? = some v → i < values.length := by
    intro values i v hv
    exact (List.getElem?_eq_some.mp hv).1
  refine ⟨?_, ?_, ?_, ?_⟩
  · intro values i v hv hnf
    rcases h : finiteVals values with _ | ⟨q, qs⟩
    · simp only [normalize_minmax, h, List.getElem?_replicate, if_pos (hidx values i v hv)]
    · simp only [normalize_minmax, h]
      split
      · rw [List.getElem?_map, hv]
        simp [hnf]
      · rw [List.getElem?_map, hv]
        cases v with
        | fin q => simp [PVal.isFinite] at hnf
        | nan => rfl
        | inf => rfl
        | ninf => rfl
  · intro values heq i v hv hf
    rcases h : finiteVals values with _ | ⟨q, qs⟩
    · cases v with
      | fin x =>
        exfalso
        have : PVal.fin x ∈ values := List.getElem?_mem hv
        have : x ∈ finiteVals values := by
          simp only [finiteVals, List.mem_filterMap]
          exact ⟨PVal.fin x, this, rfl⟩
        rw [h] at this
        simp at this
      | nan => simp [PVal.isFinite] at hf
      | inf => simp [PVal.isFinite] at hf
      | ninf => simp [PVal.isFinite] at hf
    · have hq : q ∈ finiteVals values := by rw [h]; simp
      have hqs : ∀ b ∈ qs, b = q := by
        intro b hb
        exact heq b (by rw [h]; simp [hb]) q hq
      simp only [normalize_minmax, h, foldl_min_const q qs hqs, foldl_max_const q qs hqs,
        if_pos rfl, if_true]
      rw [List.getElem?_map, hv]
      simp [hf]
  · intro sqrtFn t values i v hv hnf
    have hi := hidx values i v hv
    rcases h : finiteVals values with _ | ⟨q, qs⟩
    · simp only [normalize_zscore, h, List.getElem?_replicate, if_pos hi]
    · simp only [normalize_zscore, h]
      split
      · simp only [List.getElem?_replicate, if_pos hi]
      · split
        · rename_i ht
          rw [List.getElem?_map, List.getElem?_map, hv]
          cases v with
          | fin x => simp [PVal.isFinite] at hnf
          | nan =>
            simp only [Option.map_some']
            rw [min_eq_right ht.le, max_eq_right (neg_nonpos.mpr ht.le)]
          | inf =>
            simp only [Option.map_some']
            rw [min_eq_right ht.le, max_eq_right (neg_nonpos.mpr ht.le)]
          | ninf =>
            simp only [Option.map_some']
            rw [min_eq_right ht.le, max_eq_right (neg_nonpos.mpr ht.le)]
        · rw [List.getElem?_map, hv]
          cases v with
          | fin x => simp [PVal.isFinite] at hnf
          | nan => rfl
          | inf => rfl
          | ninf => rfl
  · intro sqrtFn hsq t values heq
    rcases h : finiteVals values with _ | ⟨q, qs⟩
    · simp only [normalize_zscore, h]
    · have hall : ∀ b ∈ q :: qs, b = q := by
        intro b hb
        exact heq b (by rw [h]; exact hb) q (by rw [h]; simp)
      have hrepl : q :: qs = List.replicate (qs.length + 1) q := by
        have h2 := List.eq_replicate_of_mem hall
        simpa using h2
      have hlen : ((qs.length + 1 : ℕ) : ℚ) ≠ 0 :=
        Nat.cast_ne_zero.mpr (Nat.succ_ne_zero _)
      have hmean : (q :: qs).sum / (((q :: qs).length : ℚ)) = q := by
        rw [hrepl, List.sum_replicate, List.length_replicate, nsmul_eq_mul]
        exact mul_div_cancel_left₀ q hlen
      have hvar : ((q :: qs).map fun x => (x - q) ^ 2).sum = 0 := by
        rw [hrepl, List.map_replicate]
        simp
      simp only [normalize_zscore, h, hmean, hvar, zero_div, hsq, if_pos rfl, if_true]

theorem lookup_mem {β : Type} (f : String) (v : β) :
    ∀ l : List (String × β), l.lookup f = some v → (f, v) ∈ l := by
  intro l
  induction l with
  | nil => intro h; simp [List.lookup] at h
  | cons p t ih =>
    intro h
    rcases p with ⟨k, b⟩
    rw [List.lookup] at h
    rcases hbe : (f == k) with _ | _
    · rw [hbe] at h
      exact List.mem_cons_of_mem _ (ih h)
    · rw [hbe] at h
      have hk : f = k := by simpa using hbe
      have hb : b = v := by simpa using h
      subst hk hb
      exact List.mem_cons_self _ _

theorem presentWeight_cons_absent (features : List (String × List ℚ))
    (fw : String × ℚ) (ws : List (String × ℚ))
    (h : features.lookup fw.1 = none) :
    presentWeight features (fw :: ws) = presentWeight features ws := by
  simp [presentWeight, List.filter_cons, h]

theorem presentWeight_cons_present (features : List (String × List ℚ))
    (fw : String × ℚ) (ws : List (String × ℚ)) (vals : List ℚ)
    (h : features.lookup fw.1 = some vals) :
    presentWeight features (fw :: ws) = fw.2 + presentWeight features ws := by
  simp [presentWeight, List.filter_cons, h]

theorem weightedSumAt_cons_absent (features : List (String × List ℚ))
    (invert_features : List String) (fw : String × ℚ) (ws : List (String × ℚ)) (i : ℕ)
    (h : features.lookup fw.1 = none) :
    weightedSumAt features (fw :: ws) invert_features i =
      weightedSumAt features ws invert_features i := by
  simp [weightedSumAt, List.filter_cons, h]

theorem weightedSumAt_cons_present (features : List (String × List ℚ))
    (invert_features : List String) (fw : String × ℚ) (ws : List (String × ℚ)) (i : ℕ)
    (vals : List ℚ) (h : features.lookup fw.1 = some vals) :
    weightedSumAt features (fw :: ws) invert_features i =
      fw.2 * featureAt features invert_features fw.1 i +
        weightedSumAt features ws invert_features i := by
  simp [weightedSumAt, List.filter_cons, h]

/-- Characterisation of the weights fold of compute_weighted_score: the
accumulated weight is the present weight, the score list keeps length n,
and each score entry accumulates the weighted sum of present features. -/
theorem cws_foldl_char (features : List (String × List ℚ))
    (invert_features : List String) (n : ℕ)
    (hlen : ∀ p ∈ features, p.2.length = n) :
    ∀ (ws : List (String × ℚ)) (acc : List ℚ × ℚ), acc.1.length = n →
      (ws.foldl (cwsStep features invert_features) acc).1.length = n ∧
      (ws.foldl (cwsStep features invert_features) acc).2 =
        acc.2 + presentWeight features ws ∧
      (∀ i c, i < n → acc.1[i]? = some c →
        (ws.foldl (cwsStep features invert_features) acc).1[i]? =
          some (c + weightedSumAt features ws invert_features i)) := by
  intro ws
  induction ws with
  | nil =>
    intro acc hacc
    refine ⟨hacc, by simp [presentWeight], ?_⟩
    intro i c hi hc
    simp [weightedSumAt, hc]
  | cons fw ws ih =>
    intro acc hacc
    rw [List.foldl_cons]
    rcases hl : features.lookup fw.1 with _ | vals
    · have hstep : cwsStep features invert_features acc fw = acc := by
        simp [cwsStep, hl]
      rw [hstep]
      obtain ⟨h1, h2, h3⟩ := ih acc hacc
      refine ⟨h1, ?_, ?_⟩
      · rw [h2, presentWeight_cons_absent features fw ws hl]
      · intro i c hi hc
        rw [h3 i c hi hc, weightedSumAt_cons_absent features invert_features fw ws i hl]
    · have hvlen : vals.length = n := hlen (fw.1, vals) (lookup_mem fw.1 vals features hl)
      have hfl : (if fw.1 ∈ invert_features then vals.map (1 - ·) else vals).length = n := by
        split <;> simp [hvlen]
      have hstep : cwsStep features invert_features acc fw =
          (List.zipWith (fun s v => s + fw.2 * v) acc.1
            (if fw.1 ∈ invert_features then vals.map (1 - ·) else vals),
           acc.2 + fw.2) := by
        simp [cwsStep, hl]
      rw [hstep]
      have hlen2 : (List.zipWith (fun s v => s + fw.2 * v) acc.1
          (if fw.1 ∈ invert_features then vals.map (1 - ·) else vals)).length = n := by
        rw [List.length_zipWith, hacc, hfl]
        exact min_self n
      obtain ⟨h1, h2, h3⟩ := ih (List.zipWith (fun s v => s + fw.2 * v) acc.1
        (if fw.1 ∈ invert_features then vals.map (1 - ·) else vals), acc.2 + fw.2) hlen2
      refine ⟨h1, ?_, ?_⟩
      · rw [h2, presentWeight_cons_present features fw ws vals hl]
        ring
      · intro i c hi hc
        have hfv : (if fw.1 ∈ invert_features then vals.map (1 - ·) else vals)[i]? =
            some (featureAt features invert_features fw.1 i) := by
          have hiv : i < vals.length := by omega
          have hgv : vals[i]? = some (vals.getD i 0) := by
            rw [List.getD_eq_getElem?_getD, List.getElem?_eq_getElem hiv]
            rfl
          simp only [featureAt, hl]
          split
          · rw [List.getElem?_map, hgv]
            rfl
          · rw [hgv]
        have hzip : (List.zipWith (fun s v => s + fw.2 * v) acc.1
            (if fw.1 ∈ invert_features then vals.map (1 - ·) else vals))[i]? =
            some (c + fw.2 * featureAt features invert_features fw.1 i) := by
          rw [List.getElem?_zipWith, hc, hfv]
        rw [h3 i _ hi hzip,
          weightedSumAt_cons_present features invert_features fw ws i vals hl]
        congr 1
        ring

theorem featureAt_bounds (features : List (String × List ℚ))
    (invert_features : List String) (n : ℕ)
    (hlen : ∀ p ∈ features, p.2.length = n)
    (hbounds : ∀ p ∈ features, ∀ v ∈ p.2, 0 ≤ v ∧ v ≤ 1)
    (f : String) (vals : List ℚ) (hl : features.lookup f = some vals)
    (i : ℕ) (hi : i < n) :
    0 ≤ featureAt features invert_features f i ∧
      featureAt features invert_features f i ≤ 1 := by
  have hmem : (f, vals) ∈ features := lookup_mem f vals features hl
  have hiv : i < vals.length := by
    rw [hlen (f, vals) hmem]; exact hi
  have hvmem : vals.getD i 0 ∈ vals := by
    rw [List.getD_eq_getElem?_getD, List.getElem?_eq_getElem hiv]
    exact List.getElem_mem hiv
  have hb := hbounds (f, vals) hmem (vals.getD i 0) hvmem
  simp only [featureAt, hl]
  split
  · constructor <;> [linarith [hb.2]; linarith [hb.1]]
  · exact hb

theorem weightedSumAt_bounds (features : List (String × List ℚ))
    (invert_features : List String) (n : ℕ)
    (hlen : ∀ p ∈ features, p.2.length = n)
    (hbounds : ∀ p ∈ features, ∀ v ∈ p.2, 0 ≤ v ∧ v ≤ 1)
    (i : ℕ) (hi : i < n) :
    ∀ ws : List (String × ℚ), (∀ w ∈ ws, 0 ≤ w.2) →
      0 ≤ weightedSumAt features ws invert_features i ∧
        weightedSumAt features ws invert_features i ≤ presentWeight features ws := by
  intro ws
  induction ws with
  | nil => intro _; simp [weightedSumAt, presentWeight]
  | cons fw ws ih =>
    intro hw
    have hw0 : 0 ≤ fw.2 := hw fw (by simp)
    have ihw := ih fun w hwmem => hw w (by simp [hwmem])
    rcases hl : features.lookup fw.1 with _ | vals
    · rw [weightedSumAt_cons_absent features invert_features fw ws i hl,
        presentWeight_cons_absent features fw ws hl]
      exact ihw
    · rw [weightedSumAt_cons_present features invert_features fw ws i vals hl,
        presentWeight_cons_present features fw ws vals hl]
      have hfb := featureAt_bounds features invert_features n hlen hbounds fw.1 vals hl i hi
      constructor
      · have : 0 ≤ fw.2 * featureAt features invert_features fw.1 i :=
          mul_nonneg hw0 hfb.1
        linarith [ihw.1]
      · have : fw.2 * featureAt features invert_features fw.1 i ≤ fw.2 := by
          calc fw.2 * featureAt features invert_features fw.1 i ≤ fw.2 * 1 :=
                mul_le_mul_of_nonneg_left hfb.2 hw0
            _ = fw.2 := mul_one fw.2
        linarith [ihw.2]

theorem presentWeight_nonneg (features : List (String × List ℚ))
    (ws : List (String × ℚ)) (hw : ∀ w ∈ ws, 0 ≤ w.2) :
    0 ≤ presentWeight features ws := by
  apply List.sum_nonneg
  intro x hx
  simp only [List.mem_map] at hx
  obtain ⟨fw, hfw, rfl⟩ := hx
  exact hw fw (List.mem_filter.mp hfw).1

/-- Renormalization property of compute_weighted_score, general form. -/
theorem compute_weighted_score_renorm_aux (features : List (String × List ℚ))
    (weights : List (String × ℚ)) (invert_features : List String) (n : ℕ)
    (hne : features ≠ [])
    (hlen : ∀ p ∈ features, p.2.length = n)
    (hbounds : ∀ p ∈ features, ∀ v ∈ p.2, 0 ≤ v ∧ v ≤ 1)
    (hw : ∀ w ∈ weights, 0 ≤ w.2) :
    ∃ s : List ℚ,
      compute_weighted_score features weights invert_features = .ok s ∧
      s.length = n ∧
      (0 < presentWeight features weights →
        ∀ i, i < n → s[i]? =
          some (weightedSumAt features weights invert_features i /
            presentWeight features weights)) ∧
      (∀ x ∈ s, 0 ≤ x ∧ x ≤ 1) := by
  rcases features with _ | ⟨⟨f0, v0⟩, rest⟩
  · exact absurd rfl hne
  have hn0 : v0.length = n := hlen (f0, v0) (by simp)
  have hchar := cws_foldl_char ((f0, v0) :: rest) invert_features n hlen weights
    (List.replicate n 0, 0) (by simp)
  obtain ⟨h1, h2, h3⟩ := hchar
  have hentry : ∀ i, i < n →
      (weights.foldl (cwsStep ((f0, v0) :: rest) invert_features)
        (List.replicate n 0, 0)).1[i]? =
        some (weightedSumAt ((f0, v0) :: rest) weights invert_features i) := by
    intro i hi
    have := h3 i 0 hi (by simp [List.getElem?_replicate, hi])
    simpa using this
  have hsum2 : (weights.foldl (cwsStep ((f0, v0) :: rest) invert_features)
      (List.replicate n 0, 0)).2 = presentWeight ((f0, v0) :: rest) weights := by
    rw [h2]; ring
  have hform : compute_weighted_score ((f0, v0) :: rest) weights invert_features =
      .ok (if 0 < (weights.foldl (cwsStep ((f0, v0) :: rest) invert_features)
              (List.replicate v0.length 0, 0)).2
           then (weights.foldl (cwsStep ((f0, v0) :: rest) invert_features)
              (List.replicate v0.length 0, 0)).1.map
              (· / (weights.foldl (cwsStep ((f0, v0) :: rest) invert_features)
                (List.replicate v0.length 0, 0)).2)
           else (weights.foldl (cwsStep ((f0, v0) :: rest) invert_features)
              (List.replicate v0.length 0, 0)).1) := rfl
  rw [hn0] at hform
  by_cases hpos : 0 < presentWeight ((f0, v0) :: rest) weights
  · refine ⟨_, by rw [hform, if_pos (by rw [hsum2]; exact hpos)], ?_, ?_, ?_⟩
    · simp [h1]
    · intro _ i hi
      rw [List.getElem?_map, hentry i hi, hsum2]
      rfl
    · intro x hx
      rw [List.mem_iff_getElem?] at hx
      obtain ⟨i, hix⟩ := hx
      have hilen : i < n := by
        have := (List.getElem?_eq_some.mp hix).1
        simpa [h1] using this
      rw [List.getElem?_map, hentry i hilen, hsum2] at hix
      have hx2 : x = weightedSumAt ((f0, v0) :: rest) weights invert_features i /
          presentWeight ((f0, v0) :: rest) weights := by
        simpa using hix.symm
      subst hx2
      have hb := weightedSumAt_bounds ((f0, v0) :: rest) invert_features n hlen hbounds
        i hilen weights hw
      constructor
      · exact div_nonneg hb.1 hpos.le
      · rw [div_le_one hpos]
        exact hb.2
  · refine ⟨_, by rw [hform, if_neg (by rw [hsum2]; exact hpos)], h1, ?_, ?_⟩
    · intro hp; exact absurd hp hpos
    · intro x hx
      rw [List.mem_iff_getElem?] at hx
      obtain ⟨i, hix⟩ := hx
      have hilen : i < n := by
        have := (List.getElem?_eq_some.mp hix).1
        simpa [h1] using this
      rw [hentry i hilen] at hix
      have hb := weightedSumAt_bounds ((f0, v0) :: rest) invert_features n hlen hbounds
        i hilen weights hw
      have hpw0 : presentWeight ((f0, v0) :: rest) weights = 0 := by
        have hnn := presentWeight_nonneg ((f0, v0) :: rest) weights hw
        have hle : presentWeight ((f0, v0) :: rest) weights ≤ 0 := by
          by_contra hc
          exact hpos (lt_of_le_of_ne hnn (by intro he; exact hc (by linarith)))
        linarith
      have hx2 : x = weightedSumAt ((f0, v0) :: rest) weights invert_features i := by
        simpa using hix.symm
      subst hx2
      constructor
      · exact hb.1
      · have := hb.2
        rw [hpw0] at this
        linarith

/-- C6: for a non-empty features mapping with aligned arrays whose values
lie in [0,1] and non-negative weights, compute_weighted_score succeeds,
divides the weighted sum at each index by the sum of the weights of only
those configured features present in the mapping (when that sum is
positive), and every output value stays in [0,1]; in particular on
features f1 = [0.5, 0.8], f2 = [0.3, 0.6] with weights 0.6/0.4 it yields
[0.42, 0.72]. -/
theorem compute_weighted_score_renormalizes :
    (∀ (features : List (String × List ℚ)) (weights : List (String × ℚ))
      (invert_features : List String) (n : ℕ),
      features ≠ [] →
      (∀ p ∈ features, p.2.length = n) →
      (∀ p ∈ features, ∀ v ∈ p.2, 0 ≤ v ∧ v ≤ 1) →
      (∀ w ∈ weights, 0 ≤ w.2) →
      ∃ s : List ℚ,
        compute_weighted_score features weights invert_features = .ok s ∧
        s.length = n ∧
        (0 < presentWeight features weights →
          ∀ i, i < n → s[i]? =
            some (weightedSumAt features weights invert_features i /
              presentWeight features weights)) ∧
        (∀ x ∈ s, 0 ≤ x ∧ x ≤ 1)) ∧
    compute_weighted_score
        [("f1", [1 / 2, 4 / 5]), ("f2", [3 / 10, 3 / 5])]
        [("f1", 3 / 5), ("f2", 2 / 5)] [] =
      .ok [21 / 50, 18 / 25] := by
  constructor
  · exact fun features weights invert_features n h1 h2 h3 h4 =>
      compute_weighted_score_renorm_aux features weights invert_features n h1 h2 h3 h4
  · have e1 : ("f1" == "f1") = true := by decide
    have e2 : ("f2" == "f1") = false := by decide
    have e3 : ("f2" == "f2") = true := by decide
    norm_num [compute_weighted_score, cwsStep, List.lookup, e1, e2, e3,
      List.replicate_succ, List.zipWith_cons_cons]

/-- Per-ticker results collected by process_multi_ticker_data: one tagged
row list per successfully processed ticker, in input order. -/
def pmtCollect {α φ : Type} (pipeline : String → α → Except PyErr (List (ℤ × φ)))
    (data : List (String × α)) : List (List (String × ℤ × φ)) :=
  data.filterMap fun td =>
    match pipeline td.1 td.2 with
    | .ok rows => some (rows.map fun r => (td.1, r))
    | .error _ => none

theorem pmt_foldl_eq {α φ : Type} (pipeline : String → α → Except PyErr (List (ℤ × φ))) :
    ∀ (data : List (String × α)) (acc : List (List (String × ℤ × φ))),
      data.foldl
        (fun acc td =>
          match pipeline td.1 td.2 with
          | .ok rows => acc ++ [rows.map fun r => (td.1, r)]
          | .error _ => acc)
        acc = acc ++ pmtCollect pipeline data := by
  intro data
  induction data with
  | nil => intro acc; simp [pmtCollect]
  | cons td rest ih =>
    intro acc
    rw [List.foldl_cons]
    rcases hp : pipeline td.1 td.2 with e | rows
    · simp only [hp]
      rw [ih acc]
      simp only [pmtCollect, List.filterMap_cons, hp]
    · simp only [hp]
      rw [ih (acc ++ [rows.map fun r => (td.1, r)])]
      simp only [pmtCollect, List.filterMap_cons, hp]
      simp [List.append_assoc]

theorem process_multi_ticker_data_eq {α φ : Type}
    (pipeline : String → α → Except PyErr (List (ℤ × φ))) (data : List (String × α)) :
    process_multi_ticker_data pipeline data =
      if (pmtCollect pipeline data).isEmpty then
        .error (.valueError "No tickers were successfully processed")
      else
        .ok (((pmtCollect pipeline data).flatten).mergeSort fun a b =>
          a.1 < b.1 || (a.1 = b.1 && a.2.1 ≤ b.2.1)) := by
  unfold process_multi_ticker_data
  rw [pmt_foldl_eq pipeline data []]
  rfl

/-- C9: an exception while processing one ticker excludes exactly that
ticker from the combined output — the result over any batch containing a
failing ticker equals the result over the batch with that ticker removed,
so every remaining ticker is still processed — and the function raises
(`ValueError`) if and only if zero tickers are successfully processed. -/
theorem process_multi_ticker_isolates_failures {α φ : Type}
    (pipeline : String → α → Except PyErr (List (ℤ × φ))) :
    (∀ (l1 l2 : List (String × α)) (t : String) (f : α) (e : PyErr),
      pipeline t f = .error e →
      process_multi_ticker_data pipeline (l1 ++ (t, f) :: l2) =
        process_multi_ticker_data pipeline (l1 ++ l2)) ∧
    (∀ data : List (String × α),
      process_multi_ticker_data pipeline data =
          .error (.valueError "No tickers were successfully processed") ↔
        ∀ td ∈ data, ∃ e, pipeline td.1 td.2 = .error e) := by
  constructor
  · intro l1 l2 t f e hfail
    have hcoll : pmtCollect pipeline (l1 ++ (t, f) :: l2) =
        pmtCollect pipeline (l1 ++ l2) := by
      unfold pmtCollect
      rw [List.filterMap_append, List.filterMap_append, List.filterMap_cons]
      simp [hfail]
    rw [process_multi_ticker_data_eq, process_multi_ticker_data_eq, hcoll]
  · intro data
    rw [process_multi_ticker_data_eq]
    constructor
    · intro herr td htd
      have hempty : (pmtCollect pipeline data).isEmpty = true := by
        by_contra hne
        rw [if_neg (by simpa using hne)] at herr
        exact Except.noConfusion herr
      have hnil : pmtCollect pipeline data = [] := by
        simpa [List.isEmpty_iff] using hempty
      have hnone := (List.filterMap_eq_nil_iff.mp hnil) td htd
      rcases hp : pipeline td.1 td.2 with e | rows
      · exact ⟨e, rfl⟩
      · rw [hp] at hnone
        simp at hnone
    · intro hall
      have hnil : pmtCollect pipeline data = [] := by
        apply List.filterMap_eq_nil_iff.mpr
        intro td htd
        obtain ⟨e, he⟩ := hall td htd
        rw [he]
      rw [hnil]
      rfl

/-! Concrete witnesses instantiating the hypotheses of the theorems above. -/

/-- Witness for the rsi theorem: with period 3 the first point of
rsi([1,2,3], 3) is 100, and with the all-gain series [5,6,7], whose
smoothed avg_loss is 0, the last point of rsi([5,6,7], 2) is 100. -/
theorem rsi_warmup_and_zero_avg_loss_give_100_witness :
    (rsi [(1 : ℚ), 2, 3] 3)[0]? = some (PVal.fin 100) ∧
    (rsi [(5 : ℚ), 6, 7] 2)[2]? = some (PVal.fin 100) := by
  constructor
  · exact (rsi_warmup_and_zero_avg_loss_give_100 [(1 : ℚ), 2, 3] 3 0 (by norm_num)).1
      (by norm_num)
  · refine (rsi_warmup_and_zero_avg_loss_give_100 [(5 : ℚ), 6, 7] 2 2 (by norm_num)).2 ?_
    norm_num [ewmMean, ewmGo, rsiLosses, diffL, PVal.ltB, PVal.neg]

/-- Witness for the sma/volatility warm-up theorem at the 2-point series
[1, 2] with period 5. -/
theorem sma_volatility_warmup_undefined_witness :
    (sma [(1 : ℚ), 2] 5).length = 2 ∧
    (∀ v ∈ sma [(1 : ℚ), 2] 5, v = PVal.nan) ∧
    (volatility id [(1 : ℚ), 2] 5)[0]? = some PVal.nan := by
  have h := sma_volatility_warmup_undefined id [(1 : ℚ), 2] 5 (by norm_num)
  exact ⟨h.1.1, (h.2.1 (by norm_num)).1, (h.2.2 0 (by norm_num) (by norm_num)).2⟩

/-- Witness for the single-split theorem: a 2-for-1 split dated 6 halves
prices and doubles volume of the row dated 0, leaves the row dated 6
unchanged, and a ratio-1 split leaves the frame exactly equal. -/
theorem apply_single_split_action_witness :
    (apply_corporate_actions [⟨0, 10, 12, 9, 100, 1000⟩, ⟨6, 20, 22, 19, 200, 2000⟩]
        ⟨[(6, 2)], []⟩)[0]? = some ⟨0, 5, 6, 9 / 2, 50, 2000⟩ ∧
    (apply_corporate_actions [⟨0, 10, 12, 9, 100, 1000⟩, ⟨6, 20, 22, 19, 200, 2000⟩]
        ⟨[(6, 2)], []⟩)[1]? = some ⟨6, 20, 22, 19, 200, 2000⟩ ∧
    apply_corporate_actions [⟨0, 10, 12, 9, 100, 1000⟩] ⟨[(6, 1)], []⟩ =
      [⟨0, 10, 12, 9, 100, 1000⟩] := by
  refine ⟨?_, ?_, ?_⟩
  · have h := ((apply_single_split_action
      [⟨0, 10, 12, 9, 100, 1000⟩, ⟨6, 20, 22, 19, 200, 2000⟩] 6 2).1 0
      ⟨0, 10, 12, 9, 100, 1000⟩ rfl).1 (by norm_num)
    rw [h]
    norm_num
  · exact ((apply_single_split_action
      [⟨0, 10, 12, 9, 100, 1000⟩, ⟨6, 20, 22, 19, 200, 2000⟩] 6 2).1 1
      ⟨6, 20, 22, 19, 200, 2000⟩ rfl).2 (by norm_num)
  · exact (apply_single_split_action [⟨0, 10, 12, 9, 100, 1000⟩] 6 1).2 rfl

/-- Witness for the multi-action theorem: splits (2-for-1 at date 2, then
4-for-1 at date 5) compound to a division by 8 on the row dated 0, and a
split plus dividend dated after the row give price/ratio − amount. -/
theorem apply_corporate_actions_compound_split_first_witness :
    (apply_corporate_actions [⟨0, 16, 16, 16, 16, 10⟩] ⟨[(2, 2), (5, 4)], []⟩)[0]? =
      some ⟨0, 2, 2, 2, 2, 80⟩ ∧
    (apply_corporate_actions [⟨0, 16, 16, 16, 16, 10⟩] ⟨[(2, 2)], [(2, 1)]⟩)[0]? =
      some ⟨0, 7, 7, 7, 7, 20⟩ := by
  constructor
  · have h := apply_corporate_actions_compound_split_first.1
      [⟨0, 16, 16, 16, 16, 10⟩] 2 5 2 4 (by norm_num) 0 ⟨0, 16, 16, 16, 16, 10⟩ rfl
      (by norm_num)
    rw [h]
    norm_num
  · have h := apply_corporate_actions_compound_split_first.2
      [⟨0, 16, 16, 16, 16, 10⟩] 2 2 2 1 0 ⟨0, 16, 16, 16, 16, 10⟩ rfl (by norm_num)
      (by norm_num)
    rw [h]
    norm_num

/-- Witness for the normalizer theorem on [NaN, 5, ∞] (non-finite inputs)
and [5, NaN, 5] (zero-variance finite inputs). -/
theorem normalize_nonfinite_and_degenerate_policies_witness :
    (normalize_minmax [PVal.nan, PVal.fin 5, PVal.inf])[0]? = some 0 ∧
    (normalize_minmax [PVal.fin 5, PVal.nan, PVal.fin 5])[0]? = some (1 / 2) ∧
    (normalize_zscore id [PVal.nan, PVal.fin 5, PVal.inf] 3)[0]? = some 0 ∧
    normalize_zscore id [PVal.fin 5, PVal.nan, PVal.fin 5] 3 = [0, 0, 0] := by
  have heq : ∀ a ∈ finiteVals [PVal.fin 5, PVal.nan, PVal.fin 5],
      ∀ b ∈ finiteVals [PVal.fin 5, PVal.nan, PVal.fin 5], a = b := by
    intro a ha b hb
    simp [finiteVals] at ha hb
    rw [ha, hb]
  refine ⟨?_, ?_, ?_, ?_⟩
  · exact normalize_nonfinite_and_degenerate_policies.1 _ 0 PVal.nan rfl rfl
  · exact normalize_nonfinite_and_degenerate_policies.2.1 _ heq 0 (PVal.fin 5) rfl rfl
  · exact normalize_nonfinite_and_degenerate_policies.2.2.1 id 3 _ 0 PVal.nan rfl rfl
  · have h := normalize_nonfinite_and_degenerate_policies.2.2.2 id rfl 3 _ heq
    rw [h]
    rfl

/-- Witness for the weighted-score theorem at the documented example
inputs (all hypotheses hold: arrays of length 2 with entries in [0,1] and
non-negative weights). -/
theorem compute_weighted_score_renormalizes_witness :
    ∃ s : List ℚ,
      compute_weighted_score [("f1", [1 / 2, 4 / 5]), ("f2", [3 / 10, 3 / 5])]
          [("f1", 3 / 5), ("f2", 2 / 5)] [] = .ok s ∧
      s.length = 2 ∧
      (0 < presentWeight [("f1", [1 / 2, 4 / 5]), ("f2", [3 / 10, 3 / 5])]
          [("f1", 3 / 5), ("f2", 2 / 5)] →
        ∀ i, i < 2 → s[i]? =
          some (weightedSumAt [("f1", [1 / 2, 4 / 5]), ("f2", [3 / 10, 3 / 5])]
              [("f1", 3 / 5), ("f2", 2 / 5)] [] i /
            presentWeight [("f1", [1 / 2, 4 / 5]), ("f2", [3 / 10, 3 / 5])]
              [("f1", 3 / 5), ("f2", 2 / 5)])) ∧
      (∀ x ∈ s, 0 ≤ x ∧ x ≤ 1) := by
  apply compute_weighted_score_renormalizes.1
  · simp
  · intro p hp
    rcases (by simpa using hp :
        p = ("f1", [(1 : ℚ) / 2, 4 / 5]) ∨ p = ("f2", [(3 : ℚ) / 10, 3 / 5])) with rfl | rfl
    · rfl
    · rfl
  · intro p hp v hv
    rcases (by simpa using hp :
        p = ("f1", [(1 : ℚ) / 2, 4 / 5]) ∨ p = ("f2", [(3 : ℚ) / 10, 3 / 5])) with rfl | rfl
    · simp only [List.mem_cons, List.not_mem_nil, or_false] at hv
      rcases hv with rfl | rfl <;> norm_num
    · simp only [List.mem_cons, List.not_mem_nil, or_false] at hv
      rcases hv with rfl | rfl <;> norm_num
  · intro w hw
    rcases (by simpa using hw :
        w = ("f1", (3 : ℚ) / 5) ∨ w = ("f2", (2 : ℚ) / 5)) with rfl | rfl <;> norm_num

/-- A small per-ticker pipeline used to witness process_multi_ticker_data:
it fails on the ticker named BAD and otherwise emits one feature row. -/
def demoPipeline (t : String) (x : ℚ) : Except PyErr (List (ℤ × ℚ)) :=
  if t = "BAD" then .error (.valueError "boom") else .ok [((0 : ℤ), x)]

/-- Witness for the multi-ticker theorem: dropping the failing ticker BAD
leaves the other tickers' output unchanged, and a batch whose only ticker
fails raises the documented ValueError. -/
theorem process_multi_ticker_isolates_failures_witness :
    process_multi_ticker_data demoPipeline [("A", 1), ("BAD", 2), ("B", 3)] =
      process_multi_ticker_data demoPipeline [("A", 1), ("B", 3)] ∧
    process_multi_ticker_data demoPipeline [("BAD", (2 : ℚ))] =
      .error (.valueError "No tickers were successfully processed") := by
  constructor
  · exact (process_multi_ticker_isolates_failures demoPipeline).1 [("A", 1)] [("B", 3)]
      "BAD" 2 (.valueError "boom") (by simp [demoPipeline])
  · refine ((process_multi_ticker_isolates_failures demoPipeline).2 [("BAD", 2)]).mpr ?_
    intro td htd
    have htd2 : td = ("BAD", (2 : ℚ)) := by simpa using htd
    subst htd2
    exact ⟨.valueError "boom", by simp [demoPipeline]⟩

end StockLighthouse
